import Mathlib

/-!
Verification of the data-loading and reshaping layer of `fermi.py`.

The Python source is shallowly embedded: numpy 1-D arrays become `List ℚ`
(or polymorphic lists), 2-D arrays become `List (List α)` in row-major row
lists, Python floats become exact rationals `ℚ`, and fallible operations
return `Option`/`Except`.  Each definition mirrors one Python function or
method of `fermi.py`; numpy/pandas library primitives (slicing, `fliplr`,
`hstack`, `meshgrid`, `reshape`, `.T`, `argmin`) are modelled by their
documented semantics on well-formed inputs.
-/

set_option autoImplicit false

attribute [local semireducible] Rat.add Rat.sub Rat.mul Rat.inv
  Rat.ofScientific

namespace Fermi

universe u v

variable {α : Type u} {β : Type v}

/-- Element access in a row-major matrix: `elem m i j = m[i][j]` when both
indices are in range, `none` otherwise. -/
def elem (m : List (List α)) (i j : Nat) : Option α :=
  (m.get? i).bind (fun row => row.get? j)

/-- Column count of a 2-D numpy array modelled as a row list: length of the
first row (`shape[1]`); numpy arrays are rectangular so any row would do. -/
def ncols (m : List (List α)) : Nat :=
  ((m.head?).map List.length).getD 0

/-- Embedding of `mesh_var(data, var, meshgrid)` (fermi.py lines 193-235).
`zrange = meshgrid.shape[0]`, `rrange = int(meshgrid.shape[1]/2)` (Python
`int` of a nonnegative float truncates, i.e. floor division),
`meshr = data[:zrange,:rrange]` (numpy basic slicing, which clips to the
available extent and never raises), `meshl = -np.fliplr(meshr)` when
`var == 'ur'` and `np.fliplr(meshr)` otherwise, and the result is
`np.hstack((meshl, meshr))` (row-wise concatenation). -/
def mesh_var [Neg α] (data : List (List α)) (var : String)
    (grid : List (List β)) : List (List α) :=
  let zrange := grid.length
  let rrange := ncols grid / 2
  let meshr := (data.take zrange).map (fun row => row.take rrange)
  let meshl :=
    if var = "ur" then meshr.map (fun row => row.reverse.map (fun x => -x))
    else meshr.map (fun row => row.reverse)
  List.zipWith (fun l r => l ++ r) meshl meshr

/-- Embedding of `meshgrid(coord, rrange, zrange)` (fermi.py lines 163-191).
`z = coord[coord <= zrange]`, `R = coord[coord <= rrange]`,
`RR = np.hstack((-R[::-1], R))`, and `np.meshgrid(RR, z)` returns the pair
`(R2, z2)` of shape `(len(z), len(RR))` with `R2[i][j] = RR[j]` and
`z2[i][j] = z[i]`. -/
def meshgrid (coord : List ℚ) (rrange zrange : ℚ) :
    List (List ℚ) × List (List ℚ) :=
  let z := coord.filter (fun c => c ≤ zrange)
  let R := coord.filter (fun c => c ≤ rrange)
  let RR := (R.reverse.map (fun x => -x)) ++ R
  (z.map (fun _ => RR), z.map (fun zi => RR.map (fun _ => zi)))

/-- Elementwise `np.abs`, written out so it evaluates by kernel
reduction. -/
def pyAbs (q : ℚ) : ℚ :=
  if q < 0 then -q else q

/-- Tail of numpy `argmin` over already-offset indices: scanning `l` whose
head (if any) sits at index `cur`, with current first minimum `bestv` at
index `best`; a strict improvement is required to move the minimum, so ties
resolve to the first minimal index, as numpy documents. -/
def argminAbsAux (target : ℚ) : List ℚ → Nat → Nat → ℚ → Nat
  | [], _, best, _ => best
  | x :: xs, cur, best, bestv =>
    if pyAbs (x - target) < bestv then
      argminAbsAux target xs (cur + 1) cur (pyAbs (x - target))
    else argminAbsAux target xs (cur + 1) best bestv

/-- Embedding of `find_nearst(arr, target)` (fermi.py lines 276-287):
`np.abs(arr - target).argmin()`.  On an empty array numpy `argmin` raises
(`ValueError`), modelled as `none`. -/
def find_nearst (arr : List ℚ) (target : ℚ) : Option Nat :=
  match arr with
  | [] => none
  | x :: xs => some (argminAbsAux target xs 1 0 (pyAbs (x - target)))

theorem pyAbs_eq_abs (q : ℚ) : pyAbs q = |q| := by
  rw [pyAbs]
  rcases lt_or_le q 0 with h | h
  · rw [if_pos h, abs_of_neg h]
  · rw [if_neg (not_lt.mpr h), abs_of_nonneg h]

/-- Embedding of `slice_mesh(data, coord, direction, kpc)` (fermi.py lines
238-274).  `find_nearst` runs first; `data[:, nu]` (a column, `IndexError`
when `nu` is out of range of some row) for direction `'z'`, `data[nu, :]`
(a row, `IndexError` when `nu ≥ len(data)`) for `'r'`, `ValueError` for any
other direction string.  The module constant `n_constant = 5.155e23` is
defined in the source but never applied to the returned data. -/
def slice_mesh (data : List (List ℚ)) (coord : List ℚ) (direction : String)
    (kpc : ℚ) : Except String (List ℚ) :=
  match find_nearst coord kpc with
  | none => .error "ValueError: attempt to get argmin of an empty sequence"
  | some nu =>
    if direction = "z" then
      match data.mapM (fun row => row.get? nu) with
      | some col => .ok col
      | none => .error "IndexError"
    else if direction = "r" then
      match data.get? nu with
      | some row => .ok row
      | none => .error "IndexError"
    else .error "ValueError: Only z and r are allowed."

/-- The name aliasing of `FermiData.read_var` (fermi.py lines 120-123): two
sequential rebindings, `'uz'` to `'ux'` then `'ur'` to `'uy'`. -/
def resolve_var (var : String) : String :=
  let v := if var = "uz" then "ux" else var
  if v = "ur" then "uy" else v

/-- The file-path construction of `FermiData.read_var` (fermi.py lines
125-130): `<dir>/<resolved>atmascii.out` for `kprint == 0`, otherwise
`<dir>/<resolved>ascii.out<kprint>`. -/
def read_var_file (dir_path var : String) (kprint : Int) : String :=
  let v := resolve_var var
  let filename :=
    if kprint = 0 then v ++ "atmascii.out"
    else v ++ "ascii.out" ++ toString kprint
  dir_path ++ "/" ++ filename

/-- Row-major reshape into rows of `n` elements, the embedding of numpy
`reshape([n, m])` applied to a flat token list. -/
def reshapeRows (n : Nat) (l : List α) : List (List α) :=
  if h : n = 0 ∨ l.isEmpty then []
  else l.take n :: reshapeRows n (l.drop n)
termination_by l.length
decreasing_by
  simp only [List.length_drop]
  rcases l with _ | ⟨a, l⟩
  · exact absurd (Or.inr rfl) h
  · have hn : n ≠ 0 := fun hh => h (Or.inl hh)
    simp only [List.length_cons]
    omega

/-- Embedding of numpy transpose `.T` for a rectangular row-list matrix:
column `j` of the input becomes row `j` of the output. -/
def transposeM (m : List (List α)) : List (List α) :=
  (List.range (ncols m)).map (fun j => m.filterMap (fun row => row.get? j))

/-- The array part of `FermiData.read_var` (fermi.py lines 132-139), applied
to the flat numeric tokens parsed from the snapshot file: `data.max()` on an
empty array raises `ValueError`; `reshape([zone, zone])` raises `ValueError`
unless the element count is exactly `zone²`; the reshaped array is then
transposed. -/
def read_var_data (zone : Nat) (tokens : List α) :
    Except String (List (List α)) :=
  if tokens.isEmpty then
    .error "ValueError: zero-size array to reduction operation maximum"
  else if tokens.length ≠ zone * zone then
    .error "ValueError: cannot reshape array"
  else .ok (transposeM (reshapeRows zone tokens))

/-- The parameters of one pandas `read_csv` call made by
`FermiData.read_hist`: target file, header lines skipped, index column. -/
structure HistRead where
  filename : String
  skiprows : Nat
  index_col : String
deriving Repr, DecidableEq

/-- Embedding of `FermiData.read_hist(var)` (fermi.py lines 142-160): the
names `'energy'` and `'gasmass'` map to whitespace-delimited reads of
`energyc.out` (skipping 6 lines) and `gasmassc.out` (skipping 2 lines),
both indexed by the `'tyr'` column; any other name raises `ValueError`. -/
def read_hist (dir_path var : String) : Except String HistRead :=
  if var = "energy" then
    .ok ⟨dir_path ++ "/energyc.out", 6, "tyr"⟩
  else if var = "gasmass" then
    .ok ⟨dir_path ++ "/gasmassc.out", 2, "tyr"⟩
  else
    .error "ValueError: Unvailable name"

/-- Split a character list at every character satisfying `p`, keeping empty
pieces, by structural recursion (so it evaluates by kernel reduction); the
result is always non-empty. -/
def splitWhen (p : Char → Bool) : List Char → List (List Char)
  | [] => [[]]
  | x :: xs =>
    match splitWhen p xs with
    | [] => [[]]
    | h :: t => if p x then [] :: h :: t else (x :: h) :: t

/-- Python `str.split(sep)` for a one-character separator, on the character
list of the string. -/
def splitOnChar (c : Char) (l : List Char) : List (List Char) :=
  splitWhen (fun x => x = c) l

/-- Python `str.split()` with no argument: split on runs of whitespace,
discarding empty pieces. -/
def pySplit (s : String) : List String :=
  ((splitWhen Char.isWhitespace s.data).filter (fun t => t ≠ [])).map
    (fun t => String.mk t)

/-- Value of a non-empty all-digit character list. -/
def digitsToNat? (l : List Char) : Option Nat :=
  if l = [] then none
  else
    l.foldl
      (fun acc c =>
        match acc with
        | none => none
        | some a =>
          if c.isDigit then some (a * 10 + (c.toNat - ('0').toNat))
          else none)
      (some 0)

/-- Python `int(s)` on the characters of a numeric token: an optional `+`
or `-` sign followed by decimal digits (leading zeros allowed). -/
def pyIntChars (l : List Char) : Option Int :=
  match l with
  | '-' :: rest => (digitsToNat? rest).map (fun n => -(n : Int))
  | '+' :: rest => (digitsToNat? rest).map (fun n => (n : Int))
  | _ => (digitsToNat? l).map (fun n => (n : Int))

/-- Python `int(s)` on a numeric token string. -/
def pyInt? (s : String) : Option Int :=
  pyIntChars s.data

/-- The mantissa of a Python float literal, digits optionally containing
one decimal point, valued as an exact rational. -/
def pyMant? (l : List Char) : Option ℚ :=
  match splitOnChar ('.') l with
  | [a] => (digitsToNat? a).map (fun n => (n : ℚ))
  | [a, b] =>
    if a = [] ∧ b = [] then none
    else
      match (if a = [] then some 0 else digitsToNat? a),
            (if b = [] then some 0 else digitsToNat? b) with
      | some av, some bv => some ((av : ℚ) + (bv : ℚ) / (10 : ℚ) ^ b.length)
      | _, _ => none
  | _ => none

/-- The unsigned part of a Python float literal: decimal mantissa with an
optional `e` exponent, valued as an exact rational. -/
def pyFloatPos? (l : List Char) : Option ℚ :=
  match splitOnChar ('e') l with
  | [m] => pyMant? m
  | [m, ex] =>
    match pyMant? m, pyIntChars ex with
    | some q, some n => some (q * (10 : ℚ) ^ n)
    | _, _ => none
  | _ => none

/-- Python `float(s)` on a numeric token: optional sign, decimal mantissa,
optional `e`/`E` exponent, valued as an exact rational. -/
def pyFloat? (s : String) : Option ℚ :=
  match s.data.map Char.toLower with
  | '-' :: rest => (pyFloatPos? rest).map (fun q => -q)
  | '+' :: rest => pyFloatPos? rest
  | l => pyFloatPos? l

/-- The grid-geometry attributes computed by `FermiData.__init__`
(fermi.py lines 59-70), with Python floats as exact rationals. -/
structure FermiData where
  iezone : Int
  ilzone : Int
  ezone : ℚ
  zone : Int
  reso : ℚ
  kprint : List String
deriving Repr, DecidableEq

/-- Embedding of `FermiData.__init__` applied to the lines of `fermi.inp`
(fermi.py lines 62-70): `dims = text[2].split()`, `iezone = int(dims[0])`,
`ilzone = int(dims[1])`, `ezone = float(dims[2])`, `zone = iezone + ilzone`,
`reso = ezone / iezone` (`ZeroDivisionError` when `iezone == 0`), and
`kprint = text[20].split()[:-1]`.  Missing lines or tokens (`IndexError`),
unparseable tokens (`ValueError`) and the zero division are `none`. -/
def fermiInit (text : List String) : Option FermiData := do
  let l2 ← text.get? 2
  let dims := pySplit l2
  let d0 ← dims.get? 0
  let d1 ← dims.get? 1
  let d2 ← dims.get? 2
  let iezone ← pyInt? d0
  let ilzone ← pyInt? d1
  let ezone ← pyFloat? d2
  if iezone = 0 then none
  else do
    let l20 ← text.get? 20
    some { iezone := iezone, ilzone := ilzone, ezone := ezone,
           zone := iezone + ilzone, reso := ezone / (iezone : ℚ),
           kprint := (pySplit l20).dropLast }

/-- Base-10 integer logarithm by structural recursion on a fuel argument,
so that it evaluates by kernel reduction. -/
def log10Aux : Nat → Nat → Nat
  | 0, _ => 0
  | fuel + 1, n => if n < 10 then 0 else log10Aux fuel (n / 10) + 1

/-- Base-10 integer logarithm: the number of decimal digits minus one. -/
def log10 (n : Nat) : Nat :=
  log10Aux n n

/-- Decimal exponent of a positive rational: the unique `e` with
`10^e ≤ q < 10^(e+1)`.  For `q < 1` the least `k ≥ 1` with `q * 10^k ≥ 1`
is found by bounded search (it is at most `log10 q.den + 1`). -/
def floorLog10 (q : ℚ) : Int :=
  if 1 ≤ q then Int.ofNat (log10 q.floor.toNat)
  else
    match (List.range (log10 q.den + 2)).find?
        (fun k => 1 ≤ q * (10 : ℚ) ^ k) with
    | some k => -(k : Int)
    | none => 0

/-- Round-half-even (banker's rounding), the rounding used by Python float
formatting. -/
def roundHalfEven (r : ℚ) : Int :=
  let n := ⌊r⌋
  let frac := r - (n : ℚ)
  if frac < 1 / 2 then n
  else if 1 / 2 < frac then n + 1
  else if n % 2 = 0 then n else n + 1

/-- Two significant decimal digits of a positive rational: `(m, e)` with
`10 ≤ m ≤ 99` and the value rounding to `m * 10^(e-1)`. -/
def sig2 (q : ℚ) : Int × Int :=
  let e := floorLog10 q
  let m := roundHalfEven (q / (10 : ℚ) ^ (e - 1))
  if m = 100 then (10, e + 1) else (m, e)

/-- Fixed-point rendering of `m * 10^(e-1)` (`10 ≤ m ≤ 99`, `-4 ≤ e ≤ 1`)
with insignificant trailing zeros stripped, as Python `%g` does. -/
def fixedStr (m e : Int) : String :=
  let d1 := Nat.digitChar (m.toNat / 10)
  let d2n := m.toNat % 10
  let d2 := Nat.digitChar d2n
  if e = 1 then String.mk [d1, d2]
  else if e = 0 then
    if d2n = 0 then String.mk [d1] else String.mk [d1, '.', d2]
  else
    "0." ++ String.mk (List.replicate (-e - 1).toNat '0') ++
      (if d2n = 0 then String.mk [d1] else String.mk [d1, d2])

/-- Exponent digits padded to width two, as Python `%g` prints them. -/
def pad2 (n : Nat) : String :=
  if n < 10 then "0" ++ toString n else toString n

/-- Scientific rendering of `m * 10^(e-1)` (`10 ≤ m ≤ 99`), e.g. `3.4e-05`,
with a stripped one-or-two-digit mantissa and a signed two-digit-minimum
exponent, as Python `%g` does. -/
def sciStr (m e : Int) : String :=
  let d1 := Nat.digitChar (m.toNat / 10)
  let d2n := m.toNat % 10
  let d2 := Nat.digitChar d2n
  let mant := if d2n = 0 then String.mk [d1] else String.mk [d1, '.', d2]
  let ex := if 0 ≤ e then "+" ++ pad2 e.toNat else "-" ++ pad2 (-e).toNat
  mant ++ "e" ++ ex

/-- Python `"{0:.2g}".format(q)` on a positive rational: fixed-point
notation when the decimal exponent `e` satisfies `-4 ≤ e < 2`, scientific
notation otherwise. -/
def formatG2pos (q : ℚ) : String :=
  let p := sig2 q
  if -4 ≤ p.2 ∧ p.2 < 2 then fixedStr p.1 p.2 else sciStr p.1 p.2

/-- Python `"{0:.2g}".format(f)` (the first line of `latex_float`), with the
float modelled as an exact rational; at two significant digits this agrees
with the double-precision behaviour for the inputs considered. -/
def formatG2 (f : ℚ) : String :=
  if f = 0 then "0"
  else if f < 0 then "-" ++ formatG2pos (-f)
  else formatG2pos f

/-- Embedding of `latex_float(f)` (fermi.py lines 289-295): format to two
significant digits; if the result contains `'e'`, split there, parse the
exponent with `int`, and rebuild as `base \x5ctimes 10^\x7bexponent\x7d`;
otherwise return the formatted string.  A split not yielding exactly two
parts or a failing `int` would raise in Python, modelled as `none`. -/
def latex_float (f : ℚ) : Option String :=
  let float_str := formatG2 f
  if float_str.data.contains 'e' then
    match splitOnChar ('e') float_str.data with
    | [base, ex] =>
      (pyIntChars ex).map
        (fun n =>
          String.mk base ++ " \\times 10^\x7b" ++ toString n ++ "\x7d")
    | _ => none
  else some float_str

theorem get?_map_eq (f : α → β) (l : List α) (i : Nat) :
    (l.map f).get? i = (l.get? i).map f := by
  rw [List.get?_eq_getElem?, List.get?_eq_getElem?, List.getElem?_map]

theorem get?_take_lt (l : List α) {i n : Nat} (h : i < n) :
    (l.take n).get? i = l.get? i := by
  rw [List.get?_eq_getElem?, List.get?_eq_getElem?, List.getElem?_take,
    if_pos h]

theorem get?_append_lt (a b : List α) {i : Nat} (h : i < a.length) :
    (a ++ b).get? i = a.get? i := by
  rw [List.get?_eq_getElem?, List.get?_eq_getElem?, List.getElem?_append,
    if_pos h]

theorem get?_append_ge (a b : List α) {i : Nat} (h : a.length ≤ i) :
    (a ++ b).get? i = b.get? (i - a.length) := by
  rw [List.get?_eq_getElem?, List.get?_eq_getElem?,
    List.getElem?_append_right h]

theorem get?_reverse_lt (l : List α) {i : Nat} (h : i < l.length) :
    l.reverse.get? i = l.get? (l.length - 1 - i) := by
  rw [List.get?_eq_getElem?, List.get?_eq_getElem?, List.getElem?_reverse h]

theorem get?_some_of_lt {l : List α} {i : Nat} (h : i < l.length) :
    ∃ x, l.get? i = some x :=
  ⟨l.get ⟨i, h⟩, List.get?_eq_get h⟩

/-- C5: `meshgrid(coord, rrange, zrange)` filters `coord` to `Zc` (values
at most `zrange`) and `Rc` (values at most `rrange`) preserving order,
builds `RR = concat(reverse(-Rc), Rc)` of length `2 * len Rc`, and returns
`(R, z)` of shape `(len Zc, len RR)` with `R[i][j] = RR[j]` and
`z[i][j] = Zc[i]`. -/
theorem meshgrid_c5 (coord : List ℚ) (rrange zrange : ℚ) :
    ((meshgrid coord rrange zrange).1.length
        = (coord.filter (fun c => c ≤ zrange)).length)
    ∧ ((meshgrid coord rrange zrange).2.length
        = (coord.filter (fun c => c ≤ zrange)).length)
    ∧ (((coord.filter (fun c => c ≤ rrange)).reverse.map (fun x => -x)
          ++ coord.filter (fun c => c ≤ rrange)).length
        = 2 * (coord.filter (fun c => c ≤ rrange)).length)
    ∧ (∀ row ∈ (meshgrid coord rrange zrange).1,
        row.length = 2 * (coord.filter (fun c => c ≤ rrange)).length)
    ∧ (∀ row ∈ (meshgrid coord rrange zrange).2,
        row.length = 2 * (coord.filter (fun c => c ≤ rrange)).length)
    ∧ (∀ i j, i < (coord.filter (fun c => c ≤ zrange)).length →
        elem (meshgrid coord rrange zrange).1 i j
          = ((coord.filter (fun c => c ≤ rrange)).reverse.map (fun x => -x)
              ++ coord.filter (fun c => c ≤ rrange)).get? j)
    ∧ (∀ i j, i < (coord.filter (fun c => c ≤ zrange)).length →
        j < 2 * (coord.filter (fun c => c ≤ rrange)).length →
        elem (meshgrid coord rrange zrange).2 i j
          = (coord.filter (fun c => c ≤ zrange)).get? i) := by
  have hRR : ((coord.filter (fun c => c ≤ rrange)).reverse.map (fun x => -x)
      ++ coord.filter (fun c => c ≤ rrange)).length
      = 2 * (coord.filter (fun c => c ≤ rrange)).length := by
    simp only [List.length_append, List.length_map, List.length_reverse]
    omega
  refine ⟨by simp [meshgrid], by simp [meshgrid], hRR, ?_, ?_, ?_, ?_⟩
  · intro row hrow
    simp only [meshgrid, List.mem_map] at hrow
    obtain ⟨c, _, hc⟩ := hrow
    rw [← hc, hRR]
  · intro row hrow
    simp only [meshgrid, List.mem_map] at hrow
    obtain ⟨c, _, hc⟩ := hrow
    rw [← hc]
    simp only [List.length_map]
    exact hRR
  · intro i j hi
    obtain ⟨zi, hzi⟩ := get?_some_of_lt hi
    show ((((coord.filter (fun c => c ≤ zrange)).map
        (fun _ => (coord.filter (fun c => c ≤ rrange)).reverse.map
          (fun x => -x) ++ coord.filter (fun c => c ≤ rrange))).get? i).bind
        (fun row => row.get? j)) = _
    rw [get?_map_eq, hzi]
    rfl
  · intro i j hi hj
    obtain ⟨zi, hzi⟩ := get?_some_of_lt hi
    rw [← hRR] at hj
    obtain ⟨rj, hrj⟩ := get?_some_of_lt hj
    show ((((coord.filter (fun c => c ≤ zrange)).map
        (fun zi => ((coord.filter (fun c => c ≤ rrange)).reverse.map
          (fun x => -x) ++ coord.filter (fun c => c ≤ rrange)).map
            (fun _ => zi))).get? i).bind (fun row => row.get? j)) = _
    rw [get?_map_eq, hzi]
    simp only [Option.map_some', Option.some_bind]
    rw [get?_map_eq, hrj]
    rfl

/-- Witness for C5 at `coord = [1,2,3]`, `rrange = 2`, `zrange = 3`,
`i = 0`, `j = 1`. -/
theorem meshgrid_c5_witness :
    elem (meshgrid [1, 2, 3] 2 3).1 0 1 = some (-1 : ℚ) := by
  have h := (meshgrid_c5 [1, 2, 3] 2 3).2.2.2.2.2.1 0 1 (by decide)
  rw [h]
  decide

theorem mesh_var_rows (data : List (List α)) {zCount rCount : Nat}
    (hrows : zCount ≤ data.length)
    (hcols : ∀ row ∈ data, rCount ≤ row.length) :
    ∀ i, i < zCount →
      ∃ rrow, ((data.take zCount).map (fun row => row.take rCount)).get? i
          = some rrow ∧ rrow.length = rCount := by
  intro i hi
  obtain ⟨drow, hdrow⟩ := get?_some_of_lt (lt_of_lt_of_le hi hrows)
  refine ⟨drow.take rCount, ?_, ?_⟩
  · rw [get?_map_eq, get?_take_lt data hi, hdrow]
    rfl
  · rw [List.length_take]
    exact Nat.min_eq_left (hcols drow (List.get?_mem hdrow))

/-- C1: `mesh_var(field, var, grid)` with `zCount = grid.rowCount` and
`rCount = grid.colCount / 2` (column count even), on a field covering the
`zCount × rCount` sub-block, produces a mesh of shape `(zCount, 2*rCount)`
whose left half mirrors the right half: negated for `var = "ur"`, equal for
every other variable name. -/
theorem mesh_var_c1 [Neg α] (data : List (List α)) (var : String)
    (grid : List (List β)) (zCount rCount : Nat)
    (hz : grid.length = zCount) (hc : ncols grid = 2 * rCount)
    (hrows : zCount ≤ data.length)
    (hcols : ∀ row ∈ data, rCount ≤ row.length) :
    (mesh_var data var grid).length = zCount
    ∧ (∀ row ∈ mesh_var data var grid, row.length = 2 * rCount)
    ∧ (∀ z k, z < zCount → k < rCount →
        (var = "ur" →
          elem (mesh_var data var grid) z (rCount - 1 - k)
            = (elem (mesh_var data var grid) z (rCount + k)).map
                (fun x => -x))
        ∧ (var ≠ "ur" →
          elem (mesh_var data var grid) z (rCount - 1 - k)
            = elem (mesh_var data var grid) z (rCount + k))) := by
  have hrr : ncols grid / 2 = rCount := by rw [hc]; omega
  have hdef : mesh_var data var grid
      = List.zipWith (fun l r => l ++ r)
          ((if var = "ur" then
              ((data.take zCount).map (fun row => row.take rCount)).map
                (fun row => row.reverse.map (fun x => -x))
            else
              ((data.take zCount).map (fun row => row.take rCount)).map
                (fun row => row.reverse)))
          ((data.take zCount).map (fun row => row.take rCount)) := by
    rw [mesh_var, hz, hrr]
  have hmrlen : ((data.take zCount).map
      (fun row => row.take rCount)).length = zCount := by
    rw [List.length_map, List.length_take]
    exact Nat.min_eq_left hrows
  have hmr := mesh_var_rows data hrows hcols
  have hget : ∀ z, z < zCount → ∃ rrow,
      ((data.take zCount).map (fun row => row.take rCount)).get? z
          = some rrow ∧ rrow.length = rCount
      ∧ (mesh_var data var grid).get? z
          = some ((if var = "ur" then rrow.reverse.map (fun x => -x)
                    else rrow.reverse) ++ rrow) := by
    intro z hzz
    obtain ⟨rrow, hrow, hlen⟩ := hmr z hzz
    refine ⟨rrow, hrow, hlen, ?_⟩
    rw [hdef, List.get?_zipWith']
    by_cases hur : var = "ur"
    · rw [if_pos hur, if_pos hur, get?_map_eq, hrow]
      rfl
    · rw [if_neg hur, if_neg hur, get?_map_eq, hrow]
      rfl
  have hlen : (mesh_var data var grid).length = zCount := by
    rw [hdef, List.length_zipWith]
    by_cases hur : var = "ur" <;>
      simp only [hur, if_true, if_false, List.length_map, hmrlen,
        Nat.min_self, reduceIte]
  refine ⟨hlen, ?_, ?_⟩
  · intro row hrow
    obtain ⟨n, hn⟩ := List.mem_iff_get?.mp hrow
    have hnlt : n < zCount := by
      have := (List.get?_eq_some.mp hn).1
      rwa [hlen] at this
    obtain ⟨rrow, _, hrlen, hmesh⟩ := hget n hnlt
    rw [hn] at hmesh
    have hroweq := Option.some.inj hmesh
    rw [hroweq, List.length_append]
    by_cases hur : var = "ur" <;>
      simp only [hur, if_true, if_false, List.length_map,
        List.length_reverse, hrlen, reduceIte] <;> omega
  · intro z k hzz hk
    obtain ⟨rrow, _, hrlen, hmesh⟩ := hget z hzz
    have hk1 : rCount - 1 - k < rCount := by omega
    have hrev : rCount - 1 - (rCount - 1 - k) = k := by omega
    constructor
    · intro hur
      subst hur
      rw [if_pos rfl] at hmesh
      rw [elem, elem, hmesh]
      simp only [Option.some_bind]
      have hlenl : (rrow.reverse.map (fun x : α => -x)).length = rCount := by
        rw [List.length_map, List.length_reverse, hrlen]
      rw [get?_append_lt _ _ (by rw [hlenl]; exact hk1),
        get?_append_ge _ _ (by rw [hlenl]; omega), hlenl]
      have : rCount + k - rCount = k := by omega
      rw [this, get?_map_eq,
        get?_reverse_lt rrow (by rw [hrlen]; exact hk1), hrlen, hrev]
    · intro hur
      rw [if_neg hur] at hmesh
      rw [elem, elem, hmesh]
      simp only [Option.some_bind]
      have hlenl : rrow.reverse.length = rCount := by
        rw [List.length_reverse, hrlen]
      rw [get?_append_lt _ _ (by rw [hlenl]; exact hk1),
        get?_append_ge _ _ (by rw [hlenl]; omega), hlenl]
      have : rCount + k - rCount = k := by omega
      rw [this, get?_reverse_lt rrow (by rw [hrlen]; exact hk1), hrlen, hrev]

/-- Witness for C1 at `data = [[1,2],[3,4]]`, `var = "ur"`, a 2 × 4
reference mesh, `z = 0`, `k = 0`. -/
theorem mesh_var_c1_witness :
    elem (mesh_var ([[1, 2], [3, 4]] : List (List ℤ)) "ur"
        ([[9, 9, 9, 9], [9, 9, 9, 9]] : List (List ℤ))) 0 (2 - 1 - 0)
      = (elem (mesh_var ([[1, 2], [3, 4]] : List (List ℤ)) "ur"
          ([[9, 9, 9, 9], [9, 9, 9, 9]] : List (List ℤ))) 0 (2 + 0)).map
          (fun x => -x) := by
  have h := (mesh_var_c1 ([[1, 2], [3, 4]] : List (List ℤ)) "ur"
      ([[9, 9, 9, 9], [9, 9, 9, 9]] : List (List ℤ)) 2 2 (by decide)
      (by decide) (by decide) (by decide)).2.2 0 0 (by decide) (by decide)
  exact h.1 rfl

theorem zipWith_append_mem (m2 : List (List α)) (g : List α → List α) :
    ∀ row ∈ List.zipWith (fun l r => l ++ r) (m2.map g) m2,
      ∃ mr ∈ m2, row = g mr ++ mr := by
  induction m2 with
  | nil =>
    intro row h
    simp at h
  | cons a t ih =>
    intro row h
    simp only [List.map_cons, List.zipWith_cons_cons] at h
    rcases List.mem_cons.mp h with h | h
    · exact ⟨a, List.mem_cons_self a t, h⟩
    · obtain ⟨mr, hmr, hrow⟩ := ih row h
      exact ⟨mr, List.mem_cons_of_mem a hmr, hrow⟩

/-- C2, counterexample: `mesh_var` does not fail on an odd-column reference
mesh (here 1 × 3, so `rrange = int(3/2) = 1`) nor on a field smaller than
the requested sub-block (here 1 × 1 against a 2 × 4 mesh): numpy basic
slicing clips to the available extent, and in both cases an output is
silently produced. -/
theorem mesh_var_c2_counterexample :
    mesh_var ([[1, 2], [3, 4]] : List (List ℤ)) "den"
        ([[9, 9, 9]] : List (List ℤ)) = [[1, 1]]
    ∧ mesh_var ([[1]] : List (List ℤ)) "den"
        ([[9, 9, 9, 9], [9, 9, 9, 9]] : List (List ℤ)) = [[1, 1]] := by
  constructor <;> rfl

/-- C2, amended: `mesh_var` never raises.  For any reference mesh (odd or
even column count) it uses `rrange = colCount / 2` rounded down, truncates
the sub-block to the rows and columns actually present in the field, and
returns a mesh with `min(meshRows, dataRows)` rows, each of length
`2 * min(rrange, dataCols)`. -/
theorem mesh_var_c2_amended [Neg α] (data : List (List α)) (var : String)
    (grid : List (List β)) (C : Nat)
    (hrect : ∀ row ∈ data, row.length = C) :
    (mesh_var data var grid).length = min grid.length data.length
    ∧ (∀ row ∈ mesh_var data var grid,
        row.length = 2 * min (ncols grid / 2) C) := by
  have hdef : mesh_var data var grid
      = List.zipWith (fun l r => l ++ r)
          ((if var = "ur" then
              ((data.take grid.length).map
                (fun row => row.take (ncols grid / 2))).map
                  (fun row => row.reverse.map (fun x => -x))
            else
              ((data.take grid.length).map
                (fun row => row.take (ncols grid / 2))).map
                  (fun row => row.reverse)))
          ((data.take grid.length).map
            (fun row => row.take (ncols grid / 2))) := rfl
  have hm2len : (((data.take grid.length)).map
      (fun row => row.take (ncols grid / 2))).length
      = min grid.length data.length := by
    rw [List.length_map, List.length_take]
  have hmrlen : ∀ mr ∈ ((data.take grid.length)).map
      (fun row => row.take (ncols grid / 2)),
      mr.length = min (ncols grid / 2) C := by
    intro mr hmr
    obtain ⟨drow, hdrow, hdr⟩ := List.mem_map.mp hmr
    rw [← hdr, List.length_take,
      hrect drow (List.mem_of_mem_take hdrow)]
  constructor
  · rw [hdef, List.length_zipWith]
    by_cases hur : var = "ur" <;>
      simp only [hur, reduceIte, List.length_map, hm2len, Nat.min_self]
  · intro row hrow
    by_cases hur : var = "ur"
    · rw [hdef, if_pos hur] at hrow
      obtain ⟨mr, hmr, hroweq⟩ := zipWith_append_mem _ _ row hrow
      rw [hroweq, List.length_append, List.length_map,
        List.length_reverse, hmrlen mr hmr]
      omega
    · rw [hdef, if_neg hur] at hrow
      obtain ⟨mr, hmr, hroweq⟩ := zipWith_append_mem _ _ row hrow
      rw [hroweq, List.length_append, List.length_reverse, hmrlen mr hmr]
      omega

/-- Witness for the amended C2 at the odd-column counterexample input. -/
theorem mesh_var_c2_amended_witness :
    (mesh_var ([[1, 2], [3, 4]] : List (List ℤ)) "den"
        ([[9, 9, 9]] : List (List ℤ))).length = min 1 2 := by
  exact (mesh_var_c2_amended ([[1, 2], [3, 4]] : List (List ℤ)) "den"
    ([[9, 9, 9]] : List (List ℤ)) 2 (by decide)).1

theorem argminAbsAux_spec (t : ℚ) (xs : List ℚ) :
    ∀ (cur best : Nat) (bestv : ℚ),
      (argminAbsAux t xs cur best bestv = best
          ∧ ∀ k, k < xs.length → bestv ≤ |xs.getD k 0 - t|)
      ∨ (∃ k, k < xs.length ∧ argminAbsAux t xs cur best bestv = cur + k
          ∧ |xs.getD k 0 - t| < bestv
          ∧ (∀ j, j < xs.length → |xs.getD k 0 - t| ≤ |xs.getD j 0 - t|)
          ∧ (∀ j, j < k → |xs.getD k 0 - t| < |xs.getD j 0 - t|)) := by
  induction xs with
  | nil =>
    intro cur best bestv
    left
    exact ⟨rfl, fun k hk => absurd hk (by simp)⟩
  | cons x xs ih =>
    intro cur best bestv
    by_cases hx : |x - t| < bestv
    · have hstep : argminAbsAux t (x :: xs) cur best bestv
          = argminAbsAux t xs (cur + 1) cur |x - t| := by
        simp only [argminAbsAux, pyAbs_eq_abs, if_pos hx]
      rcases ih (cur + 1) cur |x - t| with ⟨heq, hmin⟩ |
        ⟨k, hk, heq, hlt, hmin, hstrict⟩
      · right
        refine ⟨0, by simp, by rw [hstep, heq]; omega, ?_, ?_, ?_⟩
        · simpa using hx
        · intro j hj
          rcases j with _ | j
          · simp
          · simp only [List.getD_cons_zero, List.getD_cons_succ]
            exact hmin j (by simpa using hj)
        · intro j hj
          exact absurd hj (by omega)
      · right
        refine ⟨k + 1, by simpa using hk, by rw [hstep, heq]; omega,
          ?_, ?_, ?_⟩
        · simp only [List.getD_cons_succ]
          exact lt_trans hlt hx
        · intro j hj
          rcases j with _ | j
          · simp only [List.getD_cons_succ, List.getD_cons_zero]
            exact le_of_lt hlt
          · simp only [List.getD_cons_succ]
            exact hmin j (by simpa using hj)
        · intro j hj
          rcases j with _ | j
          · simp only [List.getD_cons_succ, List.getD_cons_zero]
            exact hlt
          · simp only [List.getD_cons_succ]
            exact hstrict j (by omega)
    · have hstep : argminAbsAux t (x :: xs) cur best bestv
          = argminAbsAux t xs (cur + 1) best bestv := by
        simp only [argminAbsAux, pyAbs_eq_abs, if_neg hx]
      rcases ih (cur + 1) best bestv with ⟨heq, hmin⟩ |
        ⟨k, hk, heq, hlt, hmin, hstrict⟩
      · left
        refine ⟨by rw [hstep, heq], ?_⟩
        intro k hk
        rcases k with _ | k
        · simpa using le_of_not_lt hx
        · simp only [List.getD_cons_succ]
          exact hmin k (by simpa using hk)
      · right
        refine ⟨k + 1, by simpa using hk, by rw [hstep, heq]; omega,
          ?_, ?_, ?_⟩
        · simp only [List.getD_cons_succ]
          exact hlt
        · intro j hj
          rcases j with _ | j
          · simp only [List.getD_cons_succ, List.getD_cons_zero]
            exact le_of_lt (lt_of_lt_of_le hlt (le_of_not_lt hx))
          · simp only [List.getD_cons_succ]
            exact hmin j (by simpa using hj)
        · intro j hj
          rcases j with _ | j
          · simp only [List.getD_cons_succ, List.getD_cons_zero]
            exact lt_of_lt_of_le hlt (le_of_not_lt hx)
          · simp only [List.getD_cons_succ]
            exact hstrict j (by omega)

theorem find_nearst_spec (arr : List ℚ) (t : ℚ) (i : Nat)
    (h : find_nearst arr t = some i) :
    i < arr.length
    ∧ (∀ j, j < arr.length → |arr.getD i 0 - t| ≤ |arr.getD j 0 - t|)
    ∧ (∀ j, j < i → |arr.getD i 0 - t| < |arr.getD j 0 - t|) := by
  cases arr with
  | nil => exact absurd h (by simp [find_nearst])
  | cons x xs =>
    have h' : argminAbsAux t xs 1 0 |x - t| = i := by
      simpa [find_nearst, pyAbs_eq_abs] using h
    rcases argminAbsAux_spec t xs 1 0 |x - t| with ⟨heq, hmin⟩ |
      ⟨k, hk, heq, hlt, hmin, hstrict⟩
    · have hi : i = 0 := by omega
      subst hi
      refine ⟨by simp, ?_, fun j hj => absurd hj (by omega)⟩
      intro j hj
      rcases j with _ | j
      · simp
      · simp only [List.getD_cons_zero, List.getD_cons_succ]
        exact hmin j (by simpa using hj)
    · have hi : i = k + 1 := by omega
      subst hi
      refine ⟨by simpa using hk, ?_, ?_⟩
      · intro j hj
        rcases j with _ | j
        · simp only [List.getD_cons_succ, List.getD_cons_zero]
          exact le_of_lt hlt
        · simp only [List.getD_cons_succ]
          exact hmin j (by simpa using hj)
      · intro j hj
        rcases j with _ | j
        · simp only [List.getD_cons_succ, List.getD_cons_zero]
          exact hlt
        · simp only [List.getD_cons_succ]
          exact hstrict j (by omega)

theorem get?_eq_some_getD (l : List α) (i : Nat) (d : α) (h : i < l.length) :
    l.get? i = some (l.getD i d) := by
  rw [List.getD_eq_get? l i d]
  obtain ⟨x, hx⟩ := get?_some_of_lt h
  rw [hx]
  rfl

theorem mapM_get?_eq (data : List (List α)) (i : Nat) (d : α)
    (h : ∀ row ∈ data, i < row.length) :
    data.mapM (fun row => row.get? i)
      = some (data.map (fun row => row.getD i d)) := by
  induction data with
  | nil => rfl
  | cons a tl ih =>
    have ha : a.get? i = some (a.getD i d) :=
      get?_eq_some_getD a i d (h a (List.mem_cons_self a tl))
    rw [List.mapM_cons, ha,
      ih (fun row hr => h row (List.mem_cons_of_mem a hr))]
    rfl

/-- C10: on a non-empty array `find_nearst` returns an index strictly below
the array length, so `slice_mesh` built on it stays in bounds whenever the
coordinate array is no longer than the sliced dimension; on an empty array
`find_nearst` fails (numpy `argmin` of an empty sequence) instead of
returning an index. -/
theorem find_nearst_c10 (arr : List ℚ) (t : ℚ) :
    (arr ≠ [] → ∃ i, find_nearst arr t = some i ∧ i < arr.length)
    ∧ find_nearst ([] : List ℚ) t = none
    ∧ (arr ≠ [] → ∀ data : List (List ℚ), arr.length ≤ data.length →
        ∃ row, slice_mesh data arr "r" t = .ok row)
    ∧ (arr ≠ [] → ∀ data : List (List ℚ),
        (∀ row ∈ data, arr.length ≤ row.length) →
        ∃ col, slice_mesh data arr "z" t = .ok col) := by
  have hsome : arr ≠ [] → ∃ i, find_nearst arr t = some i ∧ i < arr.length := by
    intro hne
    cases arr with
    | nil => exact absurd rfl hne
    | cons x xs =>
      exact ⟨_, rfl, (find_nearst_spec (x :: xs) t _ rfl).1⟩
  refine ⟨hsome, rfl, ?_, ?_⟩
  · intro hne data hdata
    obtain ⟨nu, hnu, hlt⟩ := hsome hne
    obtain ⟨row, hrow⟩ := get?_some_of_lt (lt_of_lt_of_le hlt hdata)
    refine ⟨row, ?_⟩
    simp only [slice_mesh, hnu, hrow]
    rfl
  · intro hne data hdata
    obtain ⟨nu, hnu, hlt⟩ := hsome hne
    refine ⟨data.map (fun row => row.getD nu 0), ?_⟩
    simp only [slice_mesh, hnu,
      mapM_get?_eq data nu 0
        (fun row hr => lt_of_lt_of_le hlt (hdata row hr))]
    rfl

/-- Witness for C10 at `arr = [0,1,2,5,10]`, `t = 4.9`. -/
theorem find_nearst_c10_witness :
    ∃ i, find_nearst ([0, 1, 2, 5, 10] : List ℚ) (49 / 10) = some i
      ∧ i < ([0, 1, 2, 5, 10] : List ℚ).length :=
  (find_nearst_c10 [0, 1, 2, 5, 10] (49 / 10)).1 (by decide)

/-- C6: `slice_mesh(data, coord, direction, kpc)` finds the least index
minimizing `|coord[i] - kpc|`; for `direction = "z"` it returns the column
`data[:, index]`, for `"r"` the row `data[index, :]`, and for any other
direction string it raises `ValueError`; in particular with
`coord = [0,1,2,3]` and `kpc = 2.1` the index is 2. -/
theorem slice_mesh_c6 (data : List (List ℚ)) (coord : List ℚ) (kpc : ℚ)
    (nu : Nat) (h : find_nearst coord kpc = some nu) :
    (∀ j, j < coord.length →
        |coord.getD nu 0 - kpc| ≤ |coord.getD j 0 - kpc|)
    ∧ (∀ j, j < nu → |coord.getD nu 0 - kpc| < |coord.getD j 0 - kpc|)
    ∧ ((∀ row ∈ data, nu < row.length) →
        slice_mesh data coord "z" kpc
          = .ok (data.map (fun row => row.getD nu 0)))
    ∧ (nu < data.length →
        slice_mesh data coord "r" kpc = .ok (data.getD nu []))
    ∧ (∀ direction, direction ≠ "z" → direction ≠ "r" →
        slice_mesh data coord direction kpc
          = .error "ValueError: Only z and r are allowed.")
    ∧ (coord = [0, 1, 2, 3] → kpc = 21 / 10 → nu = 2) := by
  refine ⟨(find_nearst_spec coord kpc nu h).2.1,
    (find_nearst_spec coord kpc nu h).2.2, ?_, ?_, ?_, ?_⟩
  · intro hcols
    simp only [slice_mesh, h, mapM_get?_eq data nu 0 hcols]
    rfl
  · intro hlt
    simp only [slice_mesh, h, get?_eq_some_getD data nu [] hlt]
    rfl
  · intro direction hz hr
    simp only [slice_mesh, h, if_neg hz, if_neg hr]
  · intro hcoord hkpc
    subst hcoord
    subst hkpc
    have h2 : find_nearst [0, 1, 2, 3] ((21 : ℚ) / 10) = some 2 := by decide
    rw [h2] at h
    exact (Option.some.inj h).symm

/-- Witness for C6 at `data = [[1,2,3],[4,5,6]]`, `coord = [0,1,2,3]`,
`kpc = 2.1`: the `"z"` slice is column 2. -/
theorem slice_mesh_c6_witness :
    slice_mesh [[1, 2, 3], [4, 5, 6]] [0, 1, 2, 3] "z" (21 / 10)
      = .ok [3, 6] := by
  have h := (slice_mesh_c6 [[1, 2, 3], [4, 5, 6]] [0, 1, 2, 3] (21 / 10) 2
    (by decide)).2.2.1 (by decide)
  rw [h]
  rfl

theorem reshapeRows_cons (n : Nat) (l : List α) (hn : n ≠ 0)
    (hl : l ≠ []) :
    reshapeRows n l = l.take n :: reshapeRows n (l.drop n) := by
  rw [reshapeRows]
  rw [dif_neg]
  push_neg
  exact ⟨hn, by simpa using hl⟩

theorem reshapeRows_spec (n : Nat) (hn : n ≠ 0) :
    ∀ (m : Nat) (l : List α), l.length = m * n →
      (reshapeRows n l).length = m
      ∧ (∀ row ∈ reshapeRows n l, row.length = n)
      ∧ (∀ j, j < m →
          (reshapeRows n l).get? j = some ((l.drop (j * n)).take n)) := by
  intro m
  induction m with
  | zero =>
    intro l hl
    have hnil : l = [] := List.eq_nil_of_length_eq_zero (by omega)
    subst hnil
    rw [reshapeRows, dif_pos (Or.inr List.isEmpty_nil)]
    exact ⟨rfl, fun row hr => absurd hr (by simp),
      fun j hj => absurd hj (by omega)⟩
  | succ m ih =>
    intro l hl
    have hlge : n ≤ l.length := by
      rw [hl]
      calc n = 1 * n := by omega
      _ ≤ (m + 1) * n := Nat.mul_le_mul_right n (by omega)
    have hlne : l ≠ [] := by
      intro hnil
      rw [hnil] at hlge
      simp at hlge
      omega
    have hdrop : (l.drop n).length = m * n := by
      rw [List.length_drop, hl]
      have : (m + 1) * n = m * n + n := by ring
      omega
    obtain ⟨ihlen, ihrows, ihget⟩ := ih (l.drop n) hdrop
    rw [reshapeRows_cons n l hn hlne]
    refine ⟨by simp [ihlen], ?_, ?_⟩
    · intro row hr
      rcases List.mem_cons.mp hr with hr | hr
      · rw [hr, List.length_take]
        exact Nat.min_eq_left hlge
      · exact ihrows row hr
    · intro j hj
      rcases j with _ | j
      · simp
      · have hstep : (reshapeRows n (l.drop n)).get? j
            = some (((l.drop n).drop (j * n)).take n) :=
          ihget j (by omega)
        have hdd : (l.drop n).drop (j * n) = l.drop ((j + 1) * n) := by
          rw [List.drop_drop]
          congr 1
          ring
        rw [List.get?_cons_succ, hstep, hdd]

theorem filterMap_get?_eq (m : List (List α)) (i : Nat)
    (h : ∀ row ∈ m, i < row.length) :
    ∀ j, (m.filterMap (fun row => row.get? i)).get? j
      = (m.get? j).bind (fun row => row.get? i) := by
  induction m with
  | nil => intro j; rfl
  | cons a t ih =>
    intro j
    obtain ⟨v, hv⟩ := get?_some_of_lt (h a (List.mem_cons_self a t))
    rw [List.filterMap_cons, hv]
    rcases j with _ | j
    · simp only [List.get?_cons_zero, Option.some_bind]
      exact hv.symm
    · rw [List.get?_cons_succ, List.get?_cons_succ,
        ih (fun row hr => h row (List.mem_cons_of_mem a hr)) j]

theorem length_filterMap_some (m : List (List α)) (i : Nat)
    (h : ∀ row ∈ m, i < row.length) :
    (m.filterMap (fun row => row.get? i)).length = m.length := by
  induction m with
  | nil => rfl
  | cons a t ih =>
    obtain ⟨v, hv⟩ := get?_some_of_lt (h a (List.mem_cons_self a t))
    rw [List.filterMap_cons, hv, List.length_cons, List.length_cons,
      ih (fun row hr => h row (List.mem_cons_of_mem a hr))]

theorem transposeM_spec (m : List (List α)) (n : Nat)
    (hne : m ≠ []) (hrect : ∀ row ∈ m, row.length = n) :
    (transposeM m).length = n
    ∧ (∀ row ∈ transposeM m, row.length = m.length)
    ∧ (∀ i j, i < n → elem (transposeM m) i j = elem m j i) := by
  have hncols : ncols m = n := by
    cases m with
    | nil => exact absurd rfl hne
    | cons a t =>
      show ((some a).map List.length).getD 0 = n
      simp [hrect a (List.mem_cons_self a t)]
  have hcols : ∀ i, i < n → ∀ row ∈ m, i < row.length := by
    intro i hi row hr
    rw [hrect row hr]
    exact hi
  refine ⟨?_, ?_, ?_⟩
  · rw [transposeM, hncols, List.length_map, List.length_range]
  · intro row hr
    rw [transposeM] at hr
    obtain ⟨i, hi, hrow⟩ := List.mem_map.mp hr
    rw [← hrow]
    exact length_filterMap_some m i
      (hcols i (by rw [← hncols]; exact (List.mem_range.mp hi)) )
  · intro i j hi
    rw [elem, transposeM, get?_map_eq]
    have hir : (List.range (ncols m)).get? i = some i := by
      rw [List.get?_eq_getElem?, List.getElem?_range (by rw [hncols]; exact hi)]
    rw [hir, Option.map_some', Option.some_bind,
      filterMap_get?_eq m i (hcols i hi) j]
    rfl

theorem read_var_data_ok (zone : Nat) (tokens : List α) (hzone : 1 ≤ zone)
    (hlen : tokens.length = zone * zone) :
    read_var_data zone tokens
      = .ok (transposeM (reshapeRows zone tokens)) := by
  have hne : ¬ tokens.isEmpty = true := by
    intro he
    rw [List.isEmpty_iff] at he
    rw [he] at hlen
    simp at hlen
    omega
  rw [read_var_data, if_neg hne, if_neg (by omega)]

/-- C3: `read_var` resolves `"uz"` to `"ux"` and `"ur"` to `"uy"` leaving
all other names unchanged, reads `<dir>/<resolved>atmascii.out` for
`kprint = 0` and `<dir>/<resolved>ascii.out<kprint>` otherwise, and when
the file holds exactly `zone²` tokens returns the row-major reshape
followed by transpose, so that entry `(i, j)` is flat token number
`j * zone + i`. -/
theorem read_var_c3 {α : Type u} :
    resolve_var "uz" = "ux" ∧ resolve_var "ur" = "uy"
    ∧ (∀ var, var ≠ "uz" → var ≠ "ur" → resolve_var var = var)
    ∧ (∀ dir var, read_var_file dir var 0
        = dir ++ "/" ++ resolve_var var ++ "atmascii.out")
    ∧ (∀ dir var (k : Int), k ≠ 0 → read_var_file dir var k
        = dir ++ "/" ++ resolve_var var ++ "ascii.out" ++ toString k)
    ∧ (∀ (tokens : List α) (zone : Nat), 1 ≤ zone →
        tokens.length = zone * zone →
        ∃ m, read_var_data zone tokens = .ok m
          ∧ ∀ i j, i < zone → j < zone →
              elem m i j = tokens.get? (j * zone + i)) := by
  refine ⟨rfl, rfl, ?_, ?_, ?_, ?_⟩
  · intro var hz hr
    rw [resolve_var]
    simp only [if_neg hz, if_neg hr]
  · intro dir var
    rw [read_var_file, if_pos rfl]
    simp [String.append_assoc]
  · intro dir var k hk
    rw [read_var_file, if_neg hk]
    simp [String.append_assoc]
  · intro tokens zone hzone hlen
    have hzn : zone ≠ 0 := by omega
    obtain ⟨hrcount, hrow, hget⟩ := reshapeRows_spec zone hzn zone tokens hlen
    have hrne : reshapeRows zone tokens ≠ [] := by
      intro hnil
      rw [hnil] at hrcount
      simp at hrcount
      omega
    obtain ⟨_, _, helem⟩ := transposeM_spec (reshapeRows zone tokens) zone
      hrne hrow
    refine ⟨transposeM (reshapeRows zone tokens),
      read_var_data_ok zone tokens hzone hlen, ?_⟩
    intro i j hi hj
    rw [helem i j hi, elem, hget j hj, Option.some_bind,
      get?_take_lt _ hi, List.get?_eq_getElem?, List.getElem?_drop,
      ← List.get?_eq_getElem?]

/-- Witness for C3's reshape-transpose part at `zone = 2`,
`tokens = [1,2,3,4]`, checking entry `(0, 1) = token 2`. -/
theorem read_var_c3_witness :
    ∃ m, read_var_data 2 ([1, 2, 3, 4] : List ℤ) = .ok m
      ∧ ∀ i j, i < 2 → j < 2 →
          elem m i j = ([1, 2, 3, 4] : List ℤ).get? (j * 2 + i) :=
  read_var_c3.2.2.2.2.2 [1, 2, 3, 4] 2 (by decide) (by decide)

/-- C8: `read_var` fails (numpy `ValueError`) whenever the token count is
not exactly `zone²` (the empty file failing already at `data.max()`), and
on success the result is exactly `zone × zone`. -/
theorem read_var_c8 (zone : Nat) (tokens : List α) (hzone : 1 ≤ zone) :
    (tokens.length = zone * zone →
      ∃ m, read_var_data zone tokens = .ok m
        ∧ m.length = zone ∧ ∀ row ∈ m, row.length = zone)
    ∧ (tokens.length ≠ zone * zone →
      ∃ e, read_var_data zone tokens = .error e) := by
  constructor
  · intro hlen
    have hzn : zone ≠ 0 := by omega
    obtain ⟨hrcount, hrow, _⟩ := reshapeRows_spec zone hzn zone tokens hlen
    have hrne : reshapeRows zone tokens ≠ [] := by
      intro hnil
      rw [hnil] at hrcount
      simp at hrcount
      omega
    obtain ⟨hlen1, hrow1, _⟩ := transposeM_spec (reshapeRows zone tokens)
      zone hrne hrow
    refine ⟨transposeM (reshapeRows zone tokens),
      read_var_data_ok zone tokens hzone hlen, hlen1, ?_⟩
    intro row hr
    rw [hrow1 row hr, hrcount]
  · intro hlen
    by_cases he : tokens.isEmpty = true
    · exact ⟨_, by rw [read_var_data, if_pos he]⟩
    · exact ⟨_, by rw [read_var_data, if_neg he, if_pos hlen]⟩

/-- Witness for C8 at `zone = 2`: a 4-token file succeeds with a 2 × 2
result, a 3-token file fails. -/
theorem read_var_c8_witness :
    (∃ m, read_var_data 2 ([1, 2, 3, 4] : List ℤ) = .ok m
      ∧ m.length = 2 ∧ ∀ row ∈ m, row.length = 2)
    ∧ (∃ e, read_var_data 2 ([1, 2, 3] : List ℤ) = .error e) :=
  ⟨(read_var_c8 2 [1, 2, 3, 4] (by decide)).1 (by decide),
    (read_var_c8 2 [1, 2, 3] (by decide)).2 (by decide)⟩

/-- C7: on a well-formed configuration whose line 2 tokens parse as
integers `E`, `L` and float `X` with `E ≥ 1`, construction yields
`iezone = E`, `ilzone = L`, `ezone = X`, `zone = E + L`, `reso = X / E`,
and `kprint` equal to the tokens of line 20 with exactly the final one
dropped. -/
theorem fermiInit_c7 (text : List String) (l2 l20 s0 s1 s2 : String)
    (rest : List String) (E L : Int) (X : ℚ)
    (h2 : text.get? 2 = some l2)
    (htok : pySplit l2 = s0 :: s1 :: s2 :: rest)
    (hE : pyInt? s0 = some E) (hL : pyInt? s1 = some L)
    (hX : pyFloat? s2 = some X) (hEpos : 1 ≤ E)
    (h20 : text.get? 20 = some l20) :
    fermiInit text = some
      { iezone := E, ilzone := L, ezone := X, zone := E + L,
        reso := X / (E : ℚ), kprint := (pySplit l20).dropLast } := by
  have hEne : ¬ E = 0 := by omega
  simp only [fermiInit, h2, htok, hE, hL, hX, h20, Option.bind_eq_bind,
    Option.some_bind, List.get?_cons_zero, List.get?_cons_succ,
    if_neg hEne]

/-- Witness for C7 on a concrete 21-line configuration. -/
theorem fermiInit_c7_witness :
    fermiInit ["t", "t", " 4 6 2.0 x", "t", "t", "t", "t", "t", "t", "t",
        "t", "t", "t", "t", "t", "t", "t", "t", "t", "t", "t1 t2 t3 end"]
      = some { iezone := 4, ilzone := 6, ezone := 2, zone := 10,
               reso := 1 / 2, kprint := ["t1", "t2", "t3"] } := by
  have h := fermiInit_c7
    ["t", "t", " 4 6 2.0 x", "t", "t", "t", "t", "t", "t", "t",
      "t", "t", "t", "t", "t", "t", "t", "t", "t", "t", "t1 t2 t3 end"]
    " 4 6 2.0 x" "t1 t2 t3 end" "4" "6" "2.0" ["x"] 4 6 2
    rfl (by decide) (by decide) (by decide) (by decide) (by decide) rfl
  rw [h]
  decide

/-- C9: `read_hist` accepts exactly `"energy"` (reading `energyc.out`,
skipping 6 header lines) and `"gasmass"` (reading `gasmassc.out`, skipping
2 header lines), both whitespace-delimited and indexed by the `"tyr"`
column, and raises `ValueError` for every other name. -/
theorem read_hist_c9 (dir : String) :
    read_hist dir "energy"
      = .ok { filename := dir ++ "/energyc.out", skiprows := 6,
              index_col := "tyr" }
    ∧ read_hist dir "gasmass"
      = .ok { filename := dir ++ "/gasmassc.out", skiprows := 2,
              index_col := "tyr" }
    ∧ (∀ var, var ≠ "energy" → var ≠ "gasmass" →
        read_hist dir var = .error "ValueError: Unvailable name") := by
  refine ⟨rfl, ?_, ?_⟩
  · rw [read_hist, if_neg (by decide), if_pos rfl]
  · intro var h1 h2
    rw [read_hist, if_neg h1, if_neg h2]

/-- Witness for C9 at the unknown name `"bogus"`. -/
theorem read_hist_c9_witness :
    read_hist "d" "bogus" = .error "ValueError: Unvailable name" :=
  (read_hist_c9 "d").2.2 "bogus" (by decide) (by decide)

/-- C4, counterexample: `latex_float(0.0034)` is the plain fixed-point
string `"0.0034"` with no exponent marker, because `%.2g` uses fixed-point
notation for decimal exponents in `[-4, 2)` and 0.0034 has exponent -3; the
claimed mantissa/exponent form with exponent -3 does not occur. -/
theorem latex_float_c4_counterexample :
    latex_float (34 / 10000 : ℚ) = some "0.0034"
    ∧ (formatG2 (34 / 10000 : ℚ)).data.contains 'e' = false := by
  constructor <;> decide

/-- C4, amended: `latex_float` returns the mantissa/exponent textual form
exactly when the 2-significant-digit formatted string contains the
exponent marker `'e'`; `0.0034` formats in fixed-point as `"0.0034"` (no
marker, since its decimal exponent -3 lies in `[-4, 2)`), `12.3` yields the
plain form `"12"`, and a value such as `0.000034` (exponent -5) yields the
mantissa/exponent form with exponent -5. -/
theorem latex_float_c4 :
    (∀ f : ℚ, (formatG2 f).data.contains 'e' = false →
      latex_float f = some (formatG2 f))
    ∧ (∀ (f : ℚ) (base ex : List Char) (n : Int),
        (formatG2 f).data.contains 'e' = true →
        splitOnChar ('e') (formatG2 f).data = [base, ex] →
        pyIntChars ex = some n →
        latex_float f = some (String.mk base ++ " \\times 10^\x7b"
          ++ toString n ++ "\x7d"))
    ∧ latex_float (34 / 10000 : ℚ) = some "0.0034"
    ∧ latex_float (123 / 10 : ℚ) = some "12"
    ∧ latex_float (34 / 1000000 : ℚ) = some "3.4 \\times 10^\x7b-5\x7d"
    ∧ (formatG2 (34 / 1000000 : ℚ)).data.contains 'e' = true := by
  refine ⟨?_, ?_, by decide, by decide, by decide, by decide⟩
  · intro f hcon
    simp only [latex_float, hcon, Bool.false_eq_true, if_false]
  · intro f base ex n hcon hsplit hparse
    simp only [latex_float, hcon, if_true, hsplit, hparse,
      Option.map_some']

/-- Witness for the amended C4 at `f = 0.000034`. -/
theorem latex_float_c4_witness :
    latex_float (34 / 1000000 : ℚ)
      = some (String.mk ['3', '.', '4'] ++ " \\times 10^\x7b"
          ++ toString (-5 : Int) ++ "\x7d") :=
  latex_float_c4.2.1 (34 / 1000000) ['3', '.', '4'] ['-', '0', '5'] (-5)
    (by decide) (by decide) (by decide)

end Fermi
